import Mathlib

/-
Shallow embedding of the maze-solver core from src/src/main.rs.

Modelling conventions:
* Rust i32 values are modelled as Int (no arithmetic here ever approaches
  overflow; all coordinates stay within one step of grid bounds).
* `Rc<Node>` parent links are modelled by a plain inductive: the Rust
  `parent : Option<Rc<Node>>` is `none` exactly for the synthetic root, so
  `Node.root` / `Node.child` is the same data.
* `Vec` used as a stack (push/pop at the end) is modelled by a `List` whose
  head is the stack top; pushing the elements of a list `ms` in order is
  therefore `ms.reverse ++ stack`.
* The `HashMap<String, bool>` visited set keyed by `format!("{},{}", x, y)`
  is modelled as a `List (Int × Int)` with membership: the string key is
  injective in `(x, y)`, and `insert _ true` / `get.unwrap_or(false)` is
  exactly membership.
* Rust indexing `state[y as usize][x as usize]` panics when out of bounds
  (a negative i32 cast to usize is a huge index, also out of bounds); reads
  and writes are therefore modelled with `Option`-returning accessors, and
  the traversal returns a distinguished `oob` outcome where Rust would
  panic.  The while loop is modelled with explicit fuel and a distinguished
  `fuelOut` outcome; `traverse` supplies fuel that is proved sufficient.
-/

namespace Maze

inductive SquareKind where
  | Init
  | Obstacle
  | PossiblePath
  | SolutionPath
  | StartSquare
  | EndSquare
deriving DecidableEq, Repr

inductive ButtonState where
  | NewGame
  | Obstacle
  | Start
deriving DecidableEq, Repr

def DEFAULT_HEIGHT : Int := 9
def DEFAULT_WIDTH : Int := 10
def DEFAULT_START_X : Int := 1
def DEFAULT_START_Y : Int := 5
def DEFAULT_END_X : Int := 8
def DEFAULT_END_Y : Int := 5

/-- Rust `Node { x, y, parent: Option<Rc<Node>> }`: `root` is the node with
`parent = None`, `child x y p` the node with `parent = Some(p)`. -/
inductive Node where
  | root (x : Int) (y : Int)
  | child (x : Int) (y : Int) (parent : Node)
deriving DecidableEq, Repr

def Node.x : Node → Int
  | .root x _ => x
  | .child x _ _ => x

def Node.y : Node → Int
  | .root _ y => y
  | .child _ y _ => y

def Node.new (x y : Int) : Node := .root x y

/-- Rust `Node::find_reverse_path`: pushes `(x, y)` of every node on the
ancestor chain that has a parent (the root is skipped), walking from `self`
backwards, and never reverses the result. -/
def Node.find_reverse_path : Node → List (Int × Int)
  | .root _ _ => []
  | .child x y p => (x, y) :: p.find_reverse_path

/-- Rust `struct Move(i32, i32, Node)`. -/
structure Move where
  x : Int
  y : Int
  prev : Node
deriving DecidableEq, Repr

/-- Rust `struct State`. -/
structure State where
  button_state : ButtonState
  width : Int
  height : Int
  solved : Bool
  state : List (List SquareKind)
deriving DecidableEq, Repr

/-- The square kind `State::init_state` assigns at (row = x, column = y). -/
def squareTypeAt (column row : Int) : SquareKind :=
  if column = DEFAULT_START_Y ∧ row = DEFAULT_START_X then .StartSquare
  else if column = DEFAULT_END_Y ∧ row = DEFAULT_END_X then .EndSquare
  else .Init

/-- Rust `State::init_state`: starts from `vec![vec![]]` and, for each
column, pushes a fresh empty row then fills row `column`; the net result is
`height` filled rows followed by one trailing empty row. -/
def init_state (height width : Int) : List (List SquareKind) :=
  ((List.range height.toNat).map (fun c =>
    (List.range width.toNat).map (fun r => squareTypeAt (c : Int) (r : Int))))
    ++ [[]]

def State.clear (s : State) : State :=
  { s with button_state := .NewGame, state := init_state s.height s.width }

def State.new : State :=
  { button_state := .NewGame
    height := DEFAULT_HEIGHT
    width := DEFAULT_WIDTH
    solved := false
    state := init_state DEFAULT_HEIGHT DEFAULT_WIDTH }

/-- Checked read of `state[y as usize][x as usize]`; `none` is the Rust
indexing panic (negative coordinates cast to huge usize, hence also panic). -/
def getCell? (s : State) (x y : Int) : Option SquareKind :=
  if x < 0 ∨ y < 0 then none
  else (s.state[y.toNat]?).bind (fun row => row[x.toNat]?)

/-- Checked write of `state[y as usize][x as usize] = k`. -/
def setCell? (s : State) (x y : Int) (k : SquareKind) : Option State :=
  if x < 0 ∨ y < 0 then none
  else (s.state[y.toNat]?).bind (fun row =>
    (row[x.toNat]?).map (fun _ =>
      { s with state := s.state.set y.toNat (row.set x.toNat k) }))

/-- Rust `State::is_valid_move`.  After the bounds check against the
`width`/`height` fields Rust indexes the grid directly; on a board whose grid
really has `height` rows of `width` cells (the only boards the program
builds) that read cannot fail, and the unreachable missing-cell case is
modelled as `false`. -/
def is_valid_move (s : State) (x y : Int) : Bool :=
  if y < 0 ∨ y ≥ s.height ∨ x < 0 ∨ x ≥ s.width then false
  else match getCell? s x y with
    | some .Obstacle => false
    | some .StartSquare => false
    | some _ => true
    | none => false

/-- Rust `State::get_possible_moves`: builds `[E, W, N, S]`, calls
`reverse()`, then keeps the valid ones in order. -/
def get_possible_moves (s : State) (parent : Node) : List Move :=
  (([ Move.mk (parent.x + 1) parent.y parent,
      Move.mk (parent.x - 1) parent.y parent,
      Move.mk parent.x (parent.y - 1) parent,
      Move.mk parent.x (parent.y + 1) parent ] : List Move).reverse).filter
    (fun m => is_valid_move s m.x m.y)

/-- The `for square in parent.find_reverse_path()` loop writing
`SolutionPath` cell by cell. -/
def paintSolution (s : State) : List (Int × Int) → Option State
  | [] => some s
  | (x, y) :: rest =>
    match setCell? s x y .SolutionPath with
    | none => none
    | some s1 => paintSolution s1 rest

/-- Outcome of the traversal loop: a normal return (mutated state plus the
returned path), a Rust indexing panic, or fuel exhaustion. -/
inductive TOut where
  | ok (s : State) (path : List (Int × Int))
  | oob
  | fuelOut
deriving DecidableEq, Repr

/-- The while loop of Rust `State::traverse`, one fuel unit per iteration. -/
def traverseLoop : Nat → State → List (Int × Int) → List Move → TOut
  | 0, _, _, _ => .fuelOut
  | _ + 1, s, _, [] => .ok s []
  | fuel + 1, s, visited, m :: rest =>
    match getCell? s m.x m.y with
    | none => .oob
    | some k =>
      if k = SquareKind.EndSquare then
        match paintSolution { s with solved := true } m.prev.find_reverse_path with
        | none => .oob
        | some s2 => .ok s2 m.prev.find_reverse_path
      else if (m.x, m.y) ∈ visited then
        traverseLoop fuel s visited rest
      else
        match setCell? s m.x m.y SquareKind.PossiblePath with
        | none => .oob
        | some s1 =>
          traverseLoop fuel s1 ((m.x, m.y) :: visited)
            ((get_possible_moves s1 (Node.child m.x m.y m.prev)).reverse ++ rest)

/-- Fuel that is proved sufficient (`traverse` never returns `fuelOut`). -/
def fuelFor (s : State) (stack : List Move) : Nat :=
  stack.length + 4 * (s.width.toNat * s.height.toNat) + 1

/-- Rust `State::traverse`: the origin is hard-coded to
`(DEFAULT_START_X, DEFAULT_START_Y)`. -/
def traverse (s : State) : TOut :=
  traverseLoop
    (fuelFor s ((get_possible_moves s (Node.new DEFAULT_START_X DEFAULT_START_Y)).reverse))
    s []
    ((get_possible_moves s (Node.new DEFAULT_START_X DEFAULT_START_Y)).reverse)

def TOut.pathOf : TOut → List (Int × Int)
  | .ok _ p => p
  | _ => []

def TOut.solvedOf : TOut → Bool
  | .ok s _ => s.solved
  | _ => false

def TOut.isOk : TOut → Bool
  | .ok _ _ => true
  | _ => false

def notFuelOut : TOut → Bool
  | .fuelOut => false
  | _ => true

def notOob : TOut → Bool
  | .oob => false
  | _ => true

/-! ### Derived predicates used in the statements -/

/-- Orthogonal adjacency: the two coordinates differ by exactly one step in
exactly one axis. -/
def adjacent (a b : Int × Int) : Prop :=
  (a.1 - b.1).natAbs + (a.2 - b.2).natAbs = 1

instance (a b : Int × Int) : Decidable (adjacent a b) :=
  inferInstanceAs (Decidable ((a.1 - b.1).natAbs + (a.2 - b.2).natAbs = 1))

/-- `(x, y)` lies within a `w × h` board. -/
def inB (w h : Int) (c : Int × Int) : Prop :=
  0 ≤ c.1 ∧ c.1 < w ∧ 0 ≤ c.2 ∧ c.2 < h

instance (w h : Int) (c : Int × Int) : Decidable (inB w h c) :=
  inferInstanceAs (Decidable (0 ≤ c.1 ∧ c.1 < w ∧ 0 ≤ c.2 ∧ c.2 < h))

/-- The board's grid really provides a cell for every in-bounds coordinate:
at least `height` rows, each of the first `height` rows at least `width`
wide.  Every board the program builds (via `init_state`) satisfies this. -/
def WF (s : State) : Prop :=
  ∀ i : Nat, i < s.height.toNat →
    ∃ row, s.state[i]? = some row ∧ s.width.toNat ≤ row.length

/-- Decidable form of `WF`, used as a theorem hypothesis. -/
def wellFormedB (s : State) : Bool :=
  decide (s.height.toNat ≤ s.state.length) &&
    (s.state.take s.height.toNat).all (fun row => s.width.toNat ≤ row.length)

/-- The cell at `c` is an `EndSquare`. -/
def endAt (s : State) (c : Int × Int) : Prop :=
  getCell? s c.1 c.2 = some SquareKind.EndSquare

/-- The ancestor-chain coordinates followed by the search origin. -/
def Node.pathPlus (n : Node) : List (Int × Int) :=
  n.find_reverse_path ++ [(DEFAULT_START_X, DEFAULT_START_Y)]

/-- A node produced by the traversal: its chain of coordinates is a lattice
path of orthogonally adjacent steps leading back to the origin, and its own
coordinate heads that path. -/
def NodeInv (n : Node) : Prop :=
  n.pathPlus.head? = some (n.x, n.y) ∧ List.Chain' adjacent n.pathPlus

/-- Invariant of a pending move on the work stack, relative to the current
visited set: its coordinate is adjacent to its originating node, the
originating node is well-chained, and every ancestor coordinate has already
been expanded (is in the visited set) with no duplicates along the chain. -/
def MInv (visited : List (Int × Int)) (m : Move) : Prop :=
  adjacent (m.x, m.y) (m.prev.x, m.prev.y) ∧ NodeInv m.prev ∧
  m.prev.find_reverse_path.Nodup ∧
  ∀ c ∈ m.prev.find_reverse_path, c ∈ visited

/-! ### Concrete boards used as test inputs -/

/-- A 2-wide, 6-tall board: `StartSquare` at the hard-coded origin (1,5),
`EndSquare` at (1,4), no obstacles. -/
def cexC1 : State :=
  { button_state := .NewGame
    width := 2
    height := 6
    solved := false
    state :=
      [ [.Init, .Init], [.Init, .Init], [.Init, .Init], [.Init, .Init],
        [.Init, .EndSquare], [.Init, .StartSquare] ] }

/-- The board state `traverse` leaves behind on `cexC1`. -/
def cexC1final : State :=
  { button_state := .NewGame
    width := 2
    height := 6
    solved := true
    state :=
      [ [.Init, .Init], [.Init, .Init], [.Init, .Init], [.Init, .Init],
        [.SolutionPath, .EndSquare], [.SolutionPath, .StartSquare] ] }

/-- The 3×3 board of the spec's concrete scenario: Start=(0,0), End=(2,2),
no obstacles. -/
def boardC3 : State :=
  { button_state := .NewGame
    width := 3
    height := 3
    solved := false
    state :=
      [ [.StartSquare, .Init, .Init],
        [.Init, .Init, .Init],
        [.Init, .Init, .EndSquare] ] }

/-- A 3-wide, 7-tall board whose origin cell (1,5) is enclosed by the four
obstacles at (2,5), (0,5), (1,4), (1,6). -/
def boardC5 : State :=
  { button_state := .NewGame
    width := 3
    height := 7
    solved := false
    state :=
      [ [.Init, .Init, .Init],
        [.Init, .Init, .Init],
        [.Init, .Init, .Init],
        [.Init, .Init, .Init],
        [.Init, .Obstacle, .Init],
        [.Obstacle, .StartSquare, .Obstacle],
        [.Init, .Obstacle, .Init] ] }

/-! ### Basic lemmas about the accessors -/

theorem wellFormedB_iff_WF {s : State} : wellFormedB s = true ↔ WF s := by
  unfold wellFormedB WF
  rw [Bool.and_eq_true, decide_eq_true_eq, List.all_eq_true]
  constructor
  · rintro ⟨hlen, hall⟩ i hi
    have hilt : i < s.state.length := lt_of_lt_of_le hi hlen
    refine ⟨s.state[i], List.getElem?_eq_getElem hilt, ?_⟩
    have hmem : s.state[i] ∈ s.state.take s.height.toNat := by
      rw [List.mem_iff_getElem?]
      exact ⟨i, by rw [List.getElem?_take, if_pos hi, List.getElem?_eq_getElem hilt]⟩
    have := hall _ hmem
    rwa [decide_eq_true_eq] at this
  · intro h
    constructor
    · rcases Nat.eq_zero_or_pos s.height.toNat with h0 | h0
      · omega
      · obtain ⟨row, hrow, -⟩ := h (s.height.toNat - 1) (by omega)
        have : s.height.toNat - 1 < s.state.length := by
          by_contra hc
          rw [List.getElem?_eq_none (by omega)] at hrow
          exact Option.noConfusion hrow
        omega
    · intro row hrow
      rw [List.mem_iff_getElem?] at hrow
      obtain ⟨i, hi⟩ := hrow
      rw [List.getElem?_take] at hi
      split at hi
      · next hilt =>
        obtain ⟨row', hrow', hw⟩ := h i hilt
        rw [hi] at hrow'
        obtain rfl := Option.some.injEq _ _ |>.mp hrow'
        rwa [decide_eq_true_eq]
      · exact Option.noConfusion hi

theorem is_valid_move_bounds {s : State} {x y : Int}
    (h : is_valid_move s x y = true) : inB s.width s.height (x, y) := by
  unfold is_valid_move at h
  split at h
  · exact absurd h (by simp)
  · next hg =>
    push_neg at hg
    exact ⟨hg.2.2.1, hg.2.2.2, hg.1, hg.2.1⟩

theorem is_valid_move_obstacle {s : State} {x y : Int}
    (h : getCell? s x y = some SquareKind.Obstacle) :
    is_valid_move s x y = false := by
  unfold is_valid_move
  split
  · rfl
  · rw [h]

theorem getCell?_some_nonneg {s : State} {x y : Int} {k : SquareKind}
    (h : getCell? s x y = some k) : 0 ≤ x ∧ 0 ≤ y := by
  unfold getCell? at h
  split at h
  · exact Option.noConfusion h
  · next hg => push_neg at hg; exact ⟨hg.1, hg.2⟩

theorem setCell?_some_elim {s : State} {x y : Int} {k : SquareKind} {s' : State}
    (h : setCell? s x y k = some s') :
    0 ≤ x ∧ 0 ≤ y ∧ ∃ row, s.state[y.toNat]? = some row ∧ x.toNat < row.length ∧
      s' = { s with state := s.state.set y.toNat (row.set x.toNat k) } := by
  unfold setCell? at h
  split at h
  · exact Option.noConfusion h
  · next hg =>
    push_neg at hg
    refine ⟨hg.1, hg.2, ?_⟩
    cases hrow : s.state[y.toNat]? with
    | none => rw [hrow, Option.none_bind] at h; exact Option.noConfusion h
    | some row =>
      rw [hrow, Option.some_bind] at h
      cases hcell : row[x.toNat]? with
      | none => rw [hcell, Option.map_none'] at h; exact Option.noConfusion h
      | some c =>
        rw [hcell, Option.map_some'] at h
        refine ⟨row, rfl, ?_, (Option.some.injEq _ _ |>.mp h).symm⟩
        by_contra hge
        rw [List.getElem?_eq_none (by omega)] at hcell
        exact Option.noConfusion hcell

theorem setCell?_some_fields {s : State} {x y : Int} {k : SquareKind} {s' : State}
    (h : setCell? s x y k = some s') :
    s'.width = s.width ∧ s'.height = s.height ∧ s'.solved = s.solved ∧
      s'.button_state = s.button_state := by
  obtain ⟨-, -, row, -, -, rfl⟩ := setCell?_some_elim h
  exact ⟨rfl, rfl, rfl, rfl⟩

theorem getCell?_setCell?_self {s : State} {x y : Int} {k : SquareKind} {s' : State}
    (h : setCell? s x y k = some s') : getCell? s' x y = some k := by
  obtain ⟨hx, hy, row, hrow, hxlt, rfl⟩ := setCell?_some_elim h
  have hylt : y.toNat < s.state.length := by
    by_contra hge
    rw [List.getElem?_eq_none (by omega)] at hrow
    exact Option.noConfusion hrow
  show (if x < 0 ∨ y < 0 then none
    else ((s.state.set y.toNat (row.set x.toNat k))[y.toNat]?).bind
      (fun row => row[x.toNat]?)) = some k
  rw [if_neg (by omega), List.getElem?_set, if_pos rfl, if_pos hylt, Option.some_bind,
    List.getElem?_set, if_pos rfl, if_pos hxlt]

theorem getCell?_setCell?_ne {s : State} {x y : Int} {k : SquareKind} {s' : State}
    (h : setCell? s x y k = some s') {a b : Int} (hne : (a, b) ≠ (x, y)) :
    getCell? s' a b = getCell? s a b := by
  obtain ⟨hx, hy, row, hrow, hxlt, rfl⟩ := setCell?_some_elim h
  by_cases hab : a < 0 ∨ b < 0
  · unfold getCell?; rw [if_pos hab, if_pos hab]
  · push_neg at hab
    have hylt : y.toNat < s.state.length := by
      by_contra hge
      rw [List.getElem?_eq_none (by omega)] at hrow
      exact Option.noConfusion hrow
    show (if a < 0 ∨ b < 0 then none
        else ((s.state.set y.toNat (row.set x.toNat k))[b.toNat]?).bind
          (fun row => row[a.toNat]?))
      = (if a < 0 ∨ b < 0 then none
        else (s.state[b.toNat]?).bind (fun row => row[a.toNat]?))
    rw [if_neg (by omega), if_neg (by omega)]
    by_cases hbz : b.toNat = y.toNat
    · have hby : b = y := by omega
      have hax : a ≠ x := fun hax => hne (by rw [hax, hby])
      have haz : a.toNat ≠ x.toNat := by omega
      rw [hbz, List.getElem?_set, if_pos rfl, if_pos hylt, hrow,
        Option.some_bind, Option.some_bind,
        List.getElem?_set_ne (fun hh => haz hh.symm)]
    · rw [List.getElem?_set_ne (fun hh => hbz hh.symm)]

theorem setCell?_isSome_of_getCell? {s : State} {x y : Int} {k0 : SquareKind}
    (h : getCell? s x y = some k0) (k : SquareKind) :
    ∃ s', setCell? s x y k = some s' := by
  unfold getCell? at h
  split at h
  · exact Option.noConfusion h
  · next hg =>
    cases hrow : s.state[y.toNat]? with
    | none => rw [hrow, Option.none_bind] at h; exact Option.noConfusion h
    | some row =>
      rw [hrow, Option.some_bind] at h
      unfold setCell?
      rw [if_neg hg, hrow, Option.some_bind, h, Option.map_some']
      exact ⟨_, rfl⟩

theorem getCell?_isSome_of_WF {s : State} (h : WF s) {c : Int × Int}
    (hc : inB s.width s.height c) : ∃ k, getCell? s c.1 c.2 = some k := by
  obtain ⟨hx0, hxw, hy0, hyh⟩ := hc
  obtain ⟨row, hrow, hwle⟩ := h c.2.toNat (by omega)
  have hxlt : c.1.toNat < row.length := by omega
  unfold getCell?
  rw [if_neg (by omega), hrow, Option.some_bind]
  exact ⟨row[c.1.toNat], List.getElem?_eq_getElem hxlt⟩

theorem WF_setCell? {s : State} {x y : Int} {k : SquareKind} {s' : State}
    (h : setCell? s x y k = some s') (hw : WF s) : WF s' := by
  obtain ⟨hx, hy, row, hrow, hxlt, rfl⟩ := setCell?_some_elim h
  have hylt : y.toNat < s.state.length := by
    by_contra hge
    rw [List.getElem?_eq_none (by omega)] at hrow
    exact Option.noConfusion hrow
  intro i hi
  by_cases hiy : y.toNat = i
  · refine ⟨row.set x.toNat k, ?_, ?_⟩
    · show (s.state.set y.toNat (row.set x.toNat k))[i]? = some (row.set x.toNat k)
      rw [← hiy, List.getElem?_set, if_pos rfl, if_pos hylt]
    · obtain ⟨row', hrow', hw'⟩ := hw i hi
      rw [← hiy, hrow] at hrow'
      obtain rfl := Option.some.injEq _ _ |>.mp hrow'
      show s.width.toNat ≤ (row.set x.toNat k).length
      rw [List.length_set]
      exact hw'
  · obtain ⟨row', hrow', hw'⟩ := hw i hi
    refine ⟨row', ?_, hw'⟩
    show (s.state.set y.toNat (row.set x.toNat k))[i]? = some row'
    rw [List.getElem?_set_ne hiy, hrow']

theorem endAt_setCell? {s : State} {x y : Int} {k : SquareKind} {s' : State}
    (h : setCell? s x y k = some s') (hk : k ≠ SquareKind.EndSquare)
    (hcur : getCell? s x y ≠ some SquareKind.EndSquare) (c : Int × Int) :
    endAt s' c ↔ endAt s c := by
  obtain ⟨a, b⟩ := c
  show getCell? s' a b = some SquareKind.EndSquare ↔
    getCell? s a b = some SquareKind.EndSquare
  by_cases hc : ((a, b) : Int × Int) = (x, y)
  · injection hc with h1 h2
    subst h1
    subst h2
    rw [getCell?_setCell?_self h]
    constructor
    · intro hh
      exact absurd (Option.some.injEq _ _ |>.mp hh) hk
    · intro hh
      exact absurd hh hcur
  · rw [getCell?_setCell?_ne h hc]

/-! ### Move generator lemmas -/

theorem mem_get_possible_moves {s : State} {p : Node} {m : Move}
    (h : m ∈ get_possible_moves s p) :
    m.prev = p ∧ is_valid_move s m.x m.y = true ∧ adjacent (m.x, m.y) (p.x, p.y) := by
  unfold get_possible_moves at h
  rw [List.mem_filter] at h
  obtain ⟨hm, hv⟩ := h
  rw [List.mem_reverse] at hm
  simp only [List.mem_cons, List.not_mem_nil, or_false] at hm
  rcases hm with rfl | rfl | rfl | rfl <;> refine ⟨rfl, hv, ?_⟩ <;>
    · unfold adjacent
      dsimp only
      omega

theorem get_possible_moves_length_le (s : State) (p : Node) :
    (get_possible_moves s p).length ≤ 4 := by
  unfold get_possible_moves
  exact le_trans (List.length_filter_le _ _) (by simp)

/-! ### Counting distinct in-bounds coordinates -/

theorem length_le_of_nodup_inB {w h : Int} {l : List (Int × Int)}
    (hnd : l.Nodup) (hb : ∀ c ∈ l, inB w h c) :
    l.length ≤ w.toNat * h.toNat := by
  classical
  have hinj : ∀ c ∈ l, ∀ c' ∈ l,
      (fun c : Int × Int => (c.1.toNat, c.2.toNat)) c
        = (fun c : Int × Int => (c.1.toNat, c.2.toNat)) c' → c = c' := by
    intro c hc c' hc' hcc
    have h1 := hb c hc
    have h2 := hb c' hc'
    obtain ⟨a, b⟩ := c
    obtain ⟨a', b'⟩ := c'
    obtain ⟨e1, e2⟩ := Prod.mk.injEq .. |>.mp hcc
    obtain ⟨u1, u2, u3, u4⟩ := h1
    obtain ⟨v1, v2, v3, v4⟩ := h2
    have : a = a' := by omega
    have : b = b' := by omega
    simp_all
  have hnd2 : (l.map (fun c : Int × Int => (c.1.toNat, c.2.toNat))).Nodup :=
    List.Nodup.map_on hinj hnd
  have hsub : (l.map (fun c : Int × Int => (c.1.toNat, c.2.toNat))).toFinset
      ⊆ Finset.range w.toNat ×ˢ Finset.range h.toNat := by
    intro q hq
    rw [List.mem_toFinset, List.mem_map] at hq
    obtain ⟨c, hc, rfl⟩ := hq
    obtain ⟨u1, u2, u3, u4⟩ := hb c hc
    rw [Finset.mem_product, Finset.mem_range, Finset.mem_range]
    constructor <;> [show c.1.toNat < w.toNat; show c.2.toNat < h.toNat] <;> omega
  calc l.length
      = (l.map (fun c : Int × Int => (c.1.toNat, c.2.toNat))).length := by
        rw [List.length_map]
    _ = (l.map (fun c : Int × Int => (c.1.toNat, c.2.toNat))).toFinset.card :=
        (List.toFinset_card_of_nodup hnd2).symm
    _ ≤ (Finset.range w.toNat ×ˢ Finset.range h.toNat).card := Finset.card_le_card hsub
    _ = w.toNat * h.toNat := by
        rw [Finset.card_product, Finset.card_range, Finset.card_range]

/-! ### Solution painting lemmas -/

theorem paintSolution_fields :
    ∀ {coords : List (Int × Int)} {s s' : State},
      paintSolution s coords = some s' →
      s'.width = s.width ∧ s'.height = s.height ∧ s'.solved = s.solved := by
  intro coords
  induction coords with
  | nil =>
    intro s s' h
    obtain rfl := Option.some.injEq _ _ |>.mp h
    exact ⟨rfl, rfl, rfl⟩
  | cons c rest ih =>
    intro s s' h
    obtain ⟨a, b⟩ := c
    unfold paintSolution at h
    cases hset : setCell? s a b SquareKind.SolutionPath with
    | none => rw [hset] at h; exact Option.noConfusion h
    | some s1 =>
      rw [hset] at h
      obtain ⟨w1, h1, v1, -⟩ := setCell?_some_fields hset
      obtain ⟨w2, h2, v2⟩ := ih h
      exact ⟨w2.trans w1, h2.trans h1, v2.trans v1⟩

theorem paintSolution_isSome :
    ∀ (coords : List (Int × Int)) (s : State), WF s →
      (∀ c ∈ coords, inB s.width s.height c) →
      ∃ s', paintSolution s coords = some s' := by
  intro coords
  induction coords with
  | nil => exact fun s _ _ => ⟨s, rfl⟩
  | cons c rest ih =>
    intro s hwf hb
    obtain ⟨k0, hk0⟩ := getCell?_isSome_of_WF hwf (hb c (List.mem_cons_self ..))
    obtain ⟨a, b⟩ := c
    obtain ⟨s1, hs1⟩ := setCell?_isSome_of_getCell? hk0 SquareKind.SolutionPath
    obtain ⟨w1, h1, -, -⟩ := setCell?_some_fields hs1
    obtain ⟨s2, hs2⟩ := ih s1 (WF_setCell? hs1 hwf)
      (fun c' hc' => by rw [w1, h1]; exact hb c' (List.mem_cons_of_mem _ hc'))
    refine ⟨s2, ?_⟩
    unfold paintSolution
    rw [hs1]
    exact hs2

/-! ### Node chain invariant lemmas -/

theorem NodeInv_root : NodeInv (Node.root DEFAULT_START_X DEFAULT_START_Y) :=
  ⟨rfl, List.chain'_singleton _⟩

theorem pathPlus_child (x y : Int) (p : Node) :
    (Node.child x y p).pathPlus = (x, y) :: p.pathPlus := rfl

theorem NodeInv_child {x y : Int} {p : Node} (hp : NodeInv p)
    (hadj : adjacent (x, y) (p.x, p.y)) : NodeInv (Node.child x y p) := by
  obtain ⟨hhead, hchain⟩ := hp
  constructor
  · rfl
  · rw [pathPlus_child, List.chain'_cons']
    refine ⟨?_, hchain⟩
    intro c hc
    rw [hhead] at hc
    obtain rfl := Option.some.injEq _ _ |>.mp hc
    exact hadj

/-! ### Unfolding equations for the traversal loop -/

theorem traverseLoop_nil (fuel : Nat) (s : State) (visited : List (Int × Int)) :
    traverseLoop (fuel + 1) s visited [] = .ok s [] := rfl

theorem traverseLoop_cons (fuel : Nat) (s : State) (visited : List (Int × Int))
    (m : Move) (rest : List Move) :
    traverseLoop (fuel + 1) s visited (m :: rest) =
      match getCell? s m.x m.y with
      | none => .oob
      | some k =>
        if k = SquareKind.EndSquare then
          match paintSolution { s with solved := true } m.prev.find_reverse_path with
          | none => .oob
          | some s2 => .ok s2 m.prev.find_reverse_path
        else if (m.x, m.y) ∈ visited then
          traverseLoop fuel s visited rest
        else
          match setCell? s m.x m.y SquareKind.PossiblePath with
          | none => .oob
          | some s1 =>
            traverseLoop fuel s1 ((m.x, m.y) :: visited)
              ((get_possible_moves s1 (Node.child m.x m.y m.prev)).reverse ++ rest) := rfl

/-! ### Termination: the supplied fuel is never exhausted -/

theorem traverseLoop_ne_fuelOut :
    ∀ (fuel : Nat) (s : State) (visited : List (Int × Int)) (stack : List Move),
      (∀ m ∈ stack, inB s.width s.height (m.x, m.y)) →
      visited.Nodup →
      (∀ c ∈ visited, inB s.width s.height c) →
      stack.length + 4 * (s.width.toNat * s.height.toNat - visited.length) + 1 ≤ fuel →
      traverseLoop fuel s visited stack ≠ TOut.fuelOut := by
  intro fuel
  induction fuel with
  | zero =>
    intro s visited stack hstack hnd hvb hfuel
    omega
  | succ fuel ih =>
    intro s visited stack hstack hnd hvb hfuel
    cases stack with
    | nil =>
      rw [traverseLoop_nil]
      intro hcon
      exact TOut.noConfusion hcon
    | cons m rest =>
      rw [traverseLoop_cons]
      cases hget : getCell? s m.x m.y with
      | none =>
        intro hcon
        exact TOut.noConfusion hcon
      | some k =>
        dsimp only
        by_cases hk : k = SquareKind.EndSquare
        · rw [if_pos hk]
          cases hpaint : paintSolution { s with solved := true } m.prev.find_reverse_path with
          | none => intro hcon; exact TOut.noConfusion hcon
          | some s2 => intro hcon; exact TOut.noConfusion hcon
        · rw [if_neg hk]
          by_cases hmem : (m.x, m.y) ∈ visited
          · rw [if_pos hmem]
            refine ih s visited rest (fun m' hm' => hstack m' (List.mem_cons_of_mem _ hm'))
              hnd hvb ?_
            have : (m :: rest).length = rest.length + 1 := rfl
            omega
          · rw [if_neg hmem]
            cases hset : setCell? s m.x m.y SquareKind.PossiblePath with
            | none => intro hcon; exact TOut.noConfusion hcon
            | some s1 =>
              obtain ⟨hw1, hh1, -, -⟩ := setCell?_some_fields hset
              have hmB : inB s.width s.height (m.x, m.y) :=
                hstack m (List.mem_cons_self ..)
              have hnd' : ((m.x, m.y) :: visited).Nodup :=
                List.nodup_cons.mpr ⟨hmem, hnd⟩
              have hvb' : ∀ c ∈ (m.x, m.y) :: visited, inB s1.width s1.height c := by
                intro c hc
                rw [hw1, hh1]
                rcases List.mem_cons.mp hc with rfl | hc
                · exact hmB
                · exact hvb c hc
              have hcount : ((m.x, m.y) :: visited).length
                  ≤ s.width.toNat * s.height.toNat := by
                refine length_le_of_nodup_inB hnd' ?_
                intro c hc
                rcases List.mem_cons.mp hc with rfl | hc
                · exact hmB
                · exact hvb c hc
              refine ih s1 ((m.x, m.y) :: visited) _ ?_ hnd' hvb' ?_
              · intro m' hm'
                rcases List.mem_append.mp hm' with hm' | hm'
                · rw [List.mem_reverse] at hm'
                  obtain ⟨-, hval, -⟩ := mem_get_possible_moves hm'
                  exact is_valid_move_bounds hval
                · rw [hw1, hh1]
                  exact hstack m' (List.mem_cons_of_mem _ hm')
              · have hlen4 :
                    ((get_possible_moves s1 (Node.child m.x m.y m.prev)).reverse ++ rest).length
                      ≤ 4 + rest.length := by
                  rw [List.length_append, List.length_reverse]
                  have := get_possible_moves_length_le s1 (Node.child m.x m.y m.prev)
                  omega
                have hcl : (m :: rest).length = rest.length + 1 := rfl
                have hvl : ((m.x, m.y) :: visited).length = visited.length + 1 := rfl
                rw [hw1, hh1]
                omega

/-- The initial state of the work stack satisfies the bounds invariant. -/
theorem initial_stack_inB (s : State) :
    ∀ m ∈ (get_possible_moves s (Node.new DEFAULT_START_X DEFAULT_START_Y)).reverse,
      inB s.width s.height (m.x, m.y) := by
  intro m hm
  rw [List.mem_reverse] at hm
  obtain ⟨-, hval, -⟩ := mem_get_possible_moves hm
  exact is_valid_move_bounds hval

theorem traverse_ne_fuelOut (s : State) : traverse s ≠ TOut.fuelOut := by
  unfold traverse
  refine traverseLoop_ne_fuelOut _ s [] _ (initial_stack_inB s) List.nodup_nil
    (by intro c hc; exact absurd hc (List.not_mem_nil c)) ?_
  unfold fuelFor
  omega

/-! ### Memory safety: no out-of-bounds access on well-formed boards -/

theorem traverseLoop_ne_oob :
    ∀ (fuel : Nat) (s : State) (visited : List (Int × Int)) (stack : List Move),
      WF s →
      (∀ m ∈ stack, inB s.width s.height (m.x, m.y) ∧
        ∀ c ∈ m.prev.find_reverse_path, inB s.width s.height c) →
      traverseLoop fuel s visited stack ≠ TOut.oob := by
  intro fuel
  induction fuel with
  | zero =>
    intro s visited stack hwf hstack hcon
    exact TOut.noConfusion hcon
  | succ fuel ih =>
    intro s visited stack hwf hstack
    cases stack with
    | nil =>
      rw [traverseLoop_nil]
      intro hcon
      exact TOut.noConfusion hcon
    | cons m rest =>
      rw [traverseLoop_cons]
      obtain ⟨hmB, hchainB⟩ := hstack m (List.mem_cons_self ..)
      obtain ⟨k0, hk0⟩ := getCell?_isSome_of_WF hwf hmB
      dsimp only at hk0
      rw [hk0]
      dsimp only
      by_cases hk : k0 = SquareKind.EndSquare
      · rw [if_pos hk]
        have hwf1 : WF { s with solved := true } := hwf
        have hchainB1 : ∀ c ∈ m.prev.find_reverse_path,
            inB ({ s with solved := true } : State).width
              ({ s with solved := true } : State).height c := hchainB
        obtain ⟨s2, hs2⟩ :=
          paintSolution_isSome m.prev.find_reverse_path _ hwf1 hchainB1
        rw [hs2]
        intro hcon
        exact TOut.noConfusion hcon
      · rw [if_neg hk]
        by_cases hmem : (m.x, m.y) ∈ visited
        · rw [if_pos hmem]
          exact ih s visited rest hwf
            (fun m' hm' => hstack m' (List.mem_cons_of_mem _ hm'))
        · rw [if_neg hmem]
          obtain ⟨s1, hs1⟩ := setCell?_isSome_of_getCell? hk0 SquareKind.PossiblePath
          rw [hs1]
          obtain ⟨hw1, hh1, -, -⟩ := setCell?_some_fields hs1
          refine ih s1 _ _ (WF_setCell? hs1 hwf) ?_
          intro m' hm'
          rcases List.mem_append.mp hm' with hm' | hm'
          · rw [List.mem_reverse] at hm'
            obtain ⟨hprev, hval, -⟩ := mem_get_possible_moves hm'
            refine ⟨is_valid_move_bounds hval, ?_⟩
            intro c hc
            rw [hprev] at hc
            rw [show (Node.child m.x m.y m.prev).find_reverse_path
                = (m.x, m.y) :: m.prev.find_reverse_path from rfl] at hc
            rw [hw1, hh1]
            rcases List.mem_cons.mp hc with rfl | hc
            · exact hmB
            · exact hchainB c hc
          · obtain ⟨hb1, hb2⟩ := hstack m' (List.mem_cons_of_mem _ hm')
            rw [hw1, hh1]
            exact ⟨hb1, hb2⟩

theorem adjacent_comm {a b : Int × Int} : adjacent a b ↔ adjacent b a := by
  unfold adjacent
  omega

/-! ### Characterisation of normal returns -/

theorem traverseLoop_ok_spec :
    ∀ (fuel : Nat) (s0 s : State) (visited : List (Int × Int)) (stack : List Move)
      (s' : State) (path : List (Int × Int)),
      s.solved = s0.solved →
      (∀ c : Int × Int, endAt s c ↔ endAt s0 c) →
      (∀ m ∈ stack, MInv visited m) →
      traverseLoop fuel s visited stack = TOut.ok s' path →
      path.Nodup ∧ List.Chain' adjacent path ∧
        ((s'.solved = s0.solved ∧ path = []) ∨
          (s'.solved = true ∧ ∃ e : Int × Int, endAt s0 e ∧
            (path = [] → adjacent e (DEFAULT_START_X, DEFAULT_START_Y)) ∧
            (∀ c1 ∈ path.head?, adjacent c1 e) ∧
            (∀ c2 ∈ path.getLast?, adjacent c2 (DEFAULT_START_X, DEFAULT_START_Y)))) := by
  intro fuel
  induction fuel with
  | zero =>
    intro s0 s visited stack s' path hsolved hends hstack h
    exact TOut.noConfusion h
  | succ fuel ih =>
    intro s0 s visited stack s' path hsolved hends hstack h
    cases stack with
    | nil =>
      rw [traverseLoop_nil] at h
      injection h with h1 h2
      subst h1
      obtain rfl := h2.symm
      exact ⟨List.nodup_nil, List.chain'_nil, Or.inl ⟨hsolved, rfl⟩⟩
    | cons m rest =>
      rw [traverseLoop_cons] at h
      cases hget : getCell? s m.x m.y with
      | none =>
        rw [hget] at h
        exact TOut.noConfusion h
      | some k =>
        rw [hget] at h
        dsimp only at h
        by_cases hk : k = SquareKind.EndSquare
        · rw [if_pos hk] at h
          cases hpaint : paintSolution { s with solved := true } m.prev.find_reverse_path with
          | none =>
            rw [hpaint] at h
            exact TOut.noConfusion h
          | some s2 =>
            rw [hpaint] at h
            injection h with h1 h2
            subst h1
            obtain rfl := h2.symm
            obtain ⟨hadj, ⟨hhead, hchain⟩, hnd, hsubv⟩ := hstack m (List.mem_cons_self ..)
            have hhead' : (m.prev.find_reverse_path
                ++ [((DEFAULT_START_X, DEFAULT_START_Y) : Int × Int)]).head?
                = some (m.prev.x, m.prev.y) := hhead
            obtain ⟨hcA, hcB, hcC⟩ :=
              List.chain'_append.mp (show List.Chain' adjacent
                (m.prev.find_reverse_path ++ [(DEFAULT_START_X, DEFAULT_START_Y)]) from hchain)
            have hsolved2 : s2.solved = true := by
              obtain ⟨-, -, hv⟩ := paintSolution_fields hpaint
              exact hv
            have hendm : endAt s0 (m.x, m.y) := by
              refine (hends (m.x, m.y)).mp ?_
              show getCell? s m.x m.y = some SquareKind.EndSquare
              rw [hget, hk]
            refine ⟨hnd, hcA, Or.inr ⟨hsolved2, (m.x, m.y), hendm, ?_, ?_, ?_⟩⟩
            · intro hpe
              rw [hpe] at hhead'
              have heq := Option.some.injEq _ _ |>.mp
                (show some ((DEFAULT_START_X, DEFAULT_START_Y) : Int × Int)
                  = some (m.prev.x, m.prev.y) from hhead')
              rw [heq]
              exact hadj
            · intro c1 hc1
              cases hcc : m.prev.find_reverse_path with
              | nil => rw [hcc] at hc1; exact Option.noConfusion hc1
              | cons a t =>
                rw [hcc] at hc1 hhead'
                have ha1 : a = c1 := Option.some.injEq _ _ |>.mp hc1
                have ha2 : a = (m.prev.x, m.prev.y) := Option.some.injEq _ _ |>.mp hhead'
                rw [← ha1, ha2]
                exact adjacent_comm.mp hadj
            · intro c2 hc2
              exact hcC c2 hc2 (DEFAULT_START_X, DEFAULT_START_Y) rfl
        · rw [if_neg hk] at h
          by_cases hmem : (m.x, m.y) ∈ visited
          · rw [if_pos hmem] at h
            exact ih s0 s visited rest s' path hsolved hends
              (fun m' hm' => hstack m' (List.mem_cons_of_mem _ hm')) h
          · rw [if_neg hmem] at h
            cases hset : setCell? s m.x m.y SquareKind.PossiblePath with
            | none =>
              rw [hset] at h
              exact TOut.noConfusion h
            | some s1 =>
              rw [hset] at h
              obtain ⟨-, -, hv1, -⟩ := setCell?_some_fields hset
              have hcur : getCell? s m.x m.y ≠ some SquareKind.EndSquare := by
                rw [hget]
                intro hcon
                exact hk (Option.some.injEq _ _ |>.mp hcon)
              have hends1 : ∀ c : Int × Int, endAt s1 c ↔ endAt s0 c := fun c =>
                (endAt_setCell? hset (by intro hcon; exact SquareKind.noConfusion hcon)
                  hcur c).trans (hends c)
              obtain ⟨hadj, hNI, hnd, hsubv⟩ := hstack m (List.mem_cons_self ..)
              refine ih s0 s1 ((m.x, m.y) :: visited) _ s' path
                (hv1.trans hsolved) hends1 ?_ h
              intro m' hm'
              rcases List.mem_append.mp hm' with hm' | hm'
              · rw [List.mem_reverse] at hm'
                obtain ⟨hprev, -, hadj'⟩ := mem_get_possible_moves hm'
                refine ⟨?_, ?_, ?_, ?_⟩
                · rw [hprev]
                  exact hadj'
                · rw [hprev]
                  exact NodeInv_child hNI hadj
                · rw [hprev]
                  rw [show (Node.child m.x m.y m.prev).find_reverse_path
                      = (m.x, m.y) :: m.prev.find_reverse_path from rfl]
                  rw [List.nodup_cons]
                  exact ⟨fun hin => hmem (hsubv _ hin), hnd⟩
                · rw [hprev]
                  rw [show (Node.child m.x m.y m.prev).find_reverse_path
                      = (m.x, m.y) :: m.prev.find_reverse_path from rfl]
                  intro c hc
                  rcases List.mem_cons.mp hc with rfl | hc
                  · exact List.mem_cons_self ..
                  · exact List.mem_cons_of_mem _ (hsubv c hc)
              · obtain ⟨ha, hb, hc, hd⟩ := hstack m' (List.mem_cons_of_mem _ hm')
                exact ⟨ha, hb, hc, fun c hcc => List.mem_cons_of_mem _ (hd c hcc)⟩

/-- The initial work stack satisfies the move invariant with an empty
visited set. -/
theorem initial_stack_MInv (s : State) :
    ∀ m ∈ (get_possible_moves s (Node.new DEFAULT_START_X DEFAULT_START_Y)).reverse,
      MInv [] m := by
  intro m hm
  rw [List.mem_reverse] at hm
  obtain ⟨hprev, -, hadj⟩ := mem_get_possible_moves hm
  refine ⟨?_, ?_, ?_, ?_⟩
  · rw [hprev]
    exact hadj
  · rw [hprev]
    exact NodeInv_root
  · rw [hprev]
    exact List.nodup_nil
  · rw [hprev]
    intro c hc
    exact absurd hc (List.not_mem_nil c)

/-- Everything `traverseLoop_ok_spec` yields, at the top-level entry point. -/
theorem traverse_ok_spec {s s' : State} {path : List (Int × Int)}
    (h : traverse s = TOut.ok s' path) :
    path.Nodup ∧ List.Chain' adjacent path ∧
      ((s'.solved = s.solved ∧ path = []) ∨
        (s'.solved = true ∧ ∃ e : Int × Int, endAt s e ∧
          (path = [] → adjacent e (DEFAULT_START_X, DEFAULT_START_Y)) ∧
          (∀ c1 ∈ path.head?, adjacent c1 e) ∧
          (∀ c2 ∈ path.getLast?, adjacent c2 (DEFAULT_START_X, DEFAULT_START_Y)))) := by
  unfold traverse at h
  exact traverseLoop_ok_spec _ s s [] _ s' path rfl (fun c => Iff.rfl)
    (initial_stack_MInv s) h

theorem traverse_ne_oob {s : State} (hwf : WF s) : traverse s ≠ TOut.oob := by
  unfold traverse
  refine traverseLoop_ne_oob _ s [] _ hwf ?_
  intro m hm
  rw [List.mem_reverse] at hm
  obtain ⟨hprev, hval, -⟩ := mem_get_possible_moves hm
  refine ⟨is_valid_move_bounds hval, ?_⟩
  intro c hc
  rw [hprev] at hc
  exact absurd hc (List.not_mem_nil c)

/-! ### Claim theorems -/

/-- C2 (counterexample): on the program's own default board, with all four
neighbours of the origin (1,5) traversable, `get_possible_moves` returns
the moves in the order South, North, West, East — not the claimed order
East (2,5), West (0,5), North (1,4), South (1,6). -/
theorem maze_c2_counterexample :
    (get_possible_moves State.new (Node.new 1 5)).map (fun m => (m.x, m.y))
      = [(1, 6), (1, 4), (0, 5), (2, 5)] ∧
    (get_possible_moves State.new (Node.new 1 5)).map (fun m => (m.x, m.y))
      ≠ [(2, 5), (0, 5), (1, 4), (1, 6)] := by
  decide

/-- C2 (amended): for every board and node, `get_possible_moves` keeps
exactly the candidates passing the traversability check, each carrying the
node as parent, but in the order South (x,y+1), North (x,y-1), West
(x-1,y), East (x+1,y) — the `all_moves.reverse()` in the source flips the
E,W,N,S construction order before filtering. -/
theorem maze_c2_move_order (s : State) (p : Node) :
    get_possible_moves s p =
      List.filter (fun m => is_valid_move s m.x m.y)
        [ Move.mk p.x (p.y + 1) p, Move.mk p.x (p.y - 1) p,
          Move.mk (p.x - 1) p.y p, Move.mk (p.x + 1) p.y p ] := rfl

/-- C3 (counterexample): on the 3×3 board with Start=(0,0) and End=(2,2)
and no obstacles, `traverse` does not return the claimed path
(0,0),(1,0),(2,0),(2,1),(2,2); it returns the empty path with the solved
flag still false, because the search origin is hard-coded to (1,5), which
is outside a 3×3 grid. -/
theorem maze_c3_counterexample :
    getCell? boardC3 0 0 = some SquareKind.StartSquare ∧
    getCell? boardC3 2 2 = some SquareKind.EndSquare ∧
    TOut.pathOf (traverse boardC3) = [] ∧
    TOut.solvedOf (traverse boardC3) = false ∧
    TOut.pathOf (traverse boardC3) ≠ [(0, 0), (1, 0), (2, 0), (2, 1), (2, 2)] := by
  decide

/-- C3 (amended): on the 3×3 board with Start=(0,0), End=(2,2) and no
obstacles, `traverse` returns the board unchanged with an empty path (and
`solved` still false): every neighbour of the hard-coded origin (1,5) is
out of bounds, so the work stack starts empty. -/
theorem maze_c3_hardcoded_origin : traverse boardC3 = TOut.ok boardC3 [] := by
  decide

/-- C5: on any board whose four neighbours of the search origin
(`DEFAULT_START_X`, `DEFAULT_START_Y`) = (1,5) are all `Obstacle` cells and
whose solved flag is false, `traverse` returns the state unchanged with an
empty path, so the reported result is `solved = false` with path `[]`. -/
theorem maze_c5_enclosed_start {s : State}
    (h1 : getCell? s (DEFAULT_START_X + 1) DEFAULT_START_Y = some SquareKind.Obstacle)
    (h2 : getCell? s (DEFAULT_START_X - 1) DEFAULT_START_Y = some SquareKind.Obstacle)
    (h3 : getCell? s DEFAULT_START_X (DEFAULT_START_Y - 1) = some SquareKind.Obstacle)
    (h4 : getCell? s DEFAULT_START_X (DEFAULT_START_Y + 1) = some SquareKind.Obstacle)
    (h5 : s.solved = false) :
    ∃ s', traverse s = TOut.ok s' [] ∧ s'.solved = false := by
  have hmoves : get_possible_moves s (Node.new DEFAULT_START_X DEFAULT_START_Y) = [] := by
    unfold get_possible_moves
    simp only [List.reverse_cons, List.reverse_nil, List.nil_append, List.cons_append,
      List.filter_cons, List.filter_nil]
    simp [Node.new, Node.x, Node.y, is_valid_move_obstacle h1, is_valid_move_obstacle h2,
      is_valid_move_obstacle h3, is_valid_move_obstacle h4]
  refine ⟨s, ?_, h5⟩
  unfold traverse
  rw [hmoves]
  rfl

/-- C5 (witness): the enclosed-origin theorem applied to the concrete board
`boardC5`. -/
theorem maze_c5_witness :
    ∃ s', traverse boardC5 = TOut.ok s' [] ∧ s'.solved = false :=
  @maze_c5_enclosed_start boardC5 (by decide) (by decide) (by decide) (by decide)
    (by decide)

/-- C1 (counterexample): on `cexC1` — Start marked at (1,5), End at (1,4),
no obstacles — the traversal succeeds (`solved = true`) but the returned
path is `[(0,4), (0,5)]`: its first coordinate is not the Start coordinate
(1,5) and its last is not the End coordinate (1,4); the path is in
target-to-origin order and excludes both endpoints. -/
theorem maze_c1_counterexample :
    getCell? cexC1 1 5 = some SquareKind.StartSquare ∧
    getCell? cexC1 1 4 = some SquareKind.EndSquare ∧
    TOut.solvedOf (traverse cexC1) = true ∧
    TOut.pathOf (traverse cexC1) = [(0, 4), (0, 5)] ∧
    TOut.pathOf (traverse cexC1) ≠ [] ∧
    (TOut.pathOf (traverse cexC1)).head? ≠ some ((1 : Int), (5 : Int)) ∧
    (TOut.pathOf (traverse cexC1)).getLast? ≠ some ((1 : Int), (4 : Int)) := by
  decide

/-- C1 (amended): when `traverse` starts unsolved and returns with
`solved = true`, the returned path lists the strictly intermediate cells of
the discovered route in target-to-origin order: there is an `EndSquare`
cell `e` of the input board such that the path's first coordinate is
orthogonally adjacent to `e`, its last coordinate is orthogonally adjacent
to the search origin (1,5), and the path is empty exactly when the end was
reached in one step from the origin (then `e` is adjacent to the origin);
the Start and End coordinates themselves never appear as endpoints of the
returned sequence. -/
theorem maze_c1_path_shape {s s' : State} {path : List (Int × Int)}
    (h0 : s.solved = false) (h : traverse s = TOut.ok s' path)
    (h1 : s'.solved = true) :
    ∃ e : Int × Int, endAt s e ∧
      (path = [] → adjacent e (DEFAULT_START_X, DEFAULT_START_Y)) ∧
      (∀ c1 ∈ path.head?, adjacent c1 e) ∧
      (∀ c2 ∈ path.getLast?, adjacent c2 (DEFAULT_START_X, DEFAULT_START_Y)) := by
  obtain ⟨-, -, hcase⟩ := traverse_ok_spec h
  rcases hcase with ⟨ha, -⟩ | ⟨-, e, he, hA, hB, hC⟩
  · rw [h0] at ha
    rw [h1] at ha
    exact absurd ha (by simp)
  · exact ⟨e, he, hA, hB, hC⟩

/-- C1 (witness): the amended path-shape theorem applied to the concrete
run on `cexC1`, whose returned path is `[(0,4), (0,5)]`. -/
theorem maze_c1_witness :
    ∃ e : Int × Int, endAt cexC1 e ∧
      (([((0 : Int), (4 : Int)), (0, 5)] : List (Int × Int)) = [] →
        adjacent e (DEFAULT_START_X, DEFAULT_START_Y)) ∧
      (∀ c1 ∈ ([((0 : Int), (4 : Int)), (0, 5)] : List (Int × Int)).head?,
        adjacent c1 e) ∧
      (∀ c2 ∈ ([((0 : Int), (4 : Int)), (0, 5)] : List (Int × Int)).getLast?,
        adjacent c2 (DEFAULT_START_X, DEFAULT_START_Y)) :=
  @maze_c1_path_shape cexC1 cexC1final [((0 : Int), (4 : Int)), (0, 5)]
    (by decide) (by decide) (by decide)

/-- C4: on a well-formed board (`width × height` grid with no missing
cells), `is_valid_move` returns true iff the coordinate is in bounds and
the cell there is classified neither `Obstacle` nor `StartSquare`; the
kinds `Init`, `PossiblePath`, `SolutionPath` and `EndSquare` are all
traversable. -/
theorem maze_c4_valid_iff {s : State} (hwf : wellFormedB s = true) (x y : Int) :
    is_valid_move s x y = true ↔
      (0 ≤ x ∧ x < s.width ∧ 0 ≤ y ∧ y < s.height ∧
        getCell? s x y ≠ some SquareKind.Obstacle ∧
        getCell? s x y ≠ some SquareKind.StartSquare) := by
  have hWF := wellFormedB_iff_WF.mp hwf
  unfold is_valid_move
  split
  · next hg =>
    constructor
    · intro hcon
      exact absurd hcon (by simp)
    · rintro ⟨u1, u2, u3, u4, -, -⟩
      rcases hg with hg | hg | hg | hg <;> omega
  · next hg =>
    push_neg at hg
    obtain ⟨hg1, hg2, hg3, hg4⟩ := hg
    obtain ⟨k, hk⟩ := getCell?_isSome_of_WF hWF
      (show inB s.width s.height (x, y) from ⟨hg3, hg4, hg1, hg2⟩)
    dsimp only at hk
    rw [hk]
    cases k <;> simp [hg1, hg2, hg3, hg4]

/-- C4 (witness): the characterisation applied on the default board at the
Start cell (1,5), where `is_valid_move` is false because the cell is
`StartSquare`. -/
theorem maze_c4_witness :
    is_valid_move State.new 1 5 = true ↔
      (0 ≤ (1 : Int) ∧ (1 : Int) < State.new.width ∧ 0 ≤ (5 : Int) ∧
        (5 : Int) < State.new.height ∧
        getCell? State.new 1 5 ≠ some SquareKind.Obstacle ∧
        getCell? State.new 1 5 ≠ some SquareKind.StartSquare) :=
  @maze_c4_valid_iff State.new (by decide) 1 5

/-- C6: every path returned by `traverse` is simple — it contains no
repeated coordinate (the visited-set deduplication means every coordinate
on the parent chain was expanded exactly once). -/
theorem maze_c6_path_nodup {s s' : State} {path : List (Int × Int)}
    (h : traverse s = TOut.ok s' path) : path.Nodup :=
  (traverse_ok_spec h).1

/-- C6 (witness): the no-duplicates theorem applied to the concrete run on
`cexC1`. -/
theorem maze_c6_witness : ([((0 : Int), (4 : Int)), (0, 5)] : List (Int × Int)).Nodup :=
  @maze_c6_path_nodup cexC1 cexC1final [((0 : Int), (4 : Int)), (0, 5)] (by decide)

/-- C7: in every path returned by `traverse`, consecutive coordinates are
orthogonally adjacent — they differ by exactly one step in exactly one
axis, with no diagonal jumps and no gaps. -/
theorem maze_c7_path_adjacent {s s' : State} {path : List (Int × Int)}
    (h : traverse s = TOut.ok s' path) : List.Chain' adjacent path :=
  (traverse_ok_spec h).2.1

/-- C7 (witness): the adjacency theorem applied to the concrete run on
`cexC1`. -/
theorem maze_c7_witness :
    List.Chain' adjacent ([((0 : Int), (4 : Int)), (0, 5)] : List (Int × Int)) :=
  @maze_c7_path_adjacent cexC1 cexC1final [((0 : Int), (4 : Int)), (0, 5)] (by decide)

/-- C8: `traverse` terminates on every finite board: the fuel supplied to
the loop — one unit per pop, bounded via the visited set by four pushes per
in-bounds cell — is never exhausted, so the loop always reaches a normal
outcome. -/
theorem maze_c8_terminates (s : State) : notFuelOut (traverse s) = true := by
  cases hout : traverse s with
  | ok s' p => rfl
  | oob => rfl
  | fuelOut => exact absurd hout (traverse_ne_fuelOut s)

/-- C9: on a well-formed board every grid access made during `traverse` is
in bounds — the Rust indexing-panic branch is unreachable because every
coordinate placed on the work stack passed `is_valid_move`. -/
theorem maze_c9_no_oob {s : State} (hwf : wellFormedB s = true) :
    notOob (traverse s) = true := by
  have hne := traverse_ne_oob (wellFormedB_iff_WF.mp hwf)
  cases hout : traverse s with
  | ok s' p => rfl
  | fuelOut => rfl
  | oob => exact absurd hout hne

/-- C9 (witness): the no-out-of-bounds theorem applied to the default
board. -/
theorem maze_c9_witness : notOob (traverse State.new) = true :=
  @maze_c9_no_oob State.new (by decide)

/-- C10: the "new game" reset reinitialises the button state and the grid
but leaves the solved flag untouched: a state solved by a previous run is
still marked solved after `clear`. -/
theorem maze_c10_clear_keeps_solved {s : State} (h : s.solved = true) :
    (State.clear s).solved = true ∧
      (State.clear s).button_state = ButtonState.NewGame ∧
      (State.clear s).state = init_state s.height s.width :=
  ⟨h, rfl, rfl⟩

/-- C10 (witness): the clear theorem applied to the default board with its
solved flag set. -/
theorem maze_c10_witness :
    (State.clear { State.new with solved := true }).solved = true ∧
      (State.clear { State.new with solved := true }).button_state
        = ButtonState.NewGame ∧
      (State.clear { State.new with solved := true }).state
        = init_state ({ State.new with solved := true } : State).height
            ({ State.new with solved := true } : State).width :=
  @maze_c10_clear_keeps_solved { State.new with solved := true } rfl

end Maze
